import Mathlib

/-!
Verification of the command core of the sprotty diagramming framework:
the Select and Move commands, their merge protocol, and the move
animation, embedded shallowly from the TypeScript sources
(`src/client/src/features/move/move.tsx`,
`src/client/src/base/intent/select.spec.ts`).

The scene-graph model is reduced to what the commands observe: a root
owning an ordered list of elements, each with an identifier, a selected
flag and a position.  Index lookup (`SModelIndex.getById`) becomes a
first-match search by identifier; in-place mutation of an element
reached through the index becomes an identifier-keyed functional update
of the child list.  Positions are rational so that the interpolation
arithmetic of `MoveAnimation.tween` is exact.
-/

/-- A 2-d position, as in `utils/geometry.Point`. -/
structure Point where
  x : ℚ
  y : ℚ
deriving DecidableEq, Repr

/-- A scene-graph element as the Select and Move commands observe it:
an identifier, a selected flag and a position. -/
structure SElem where
  id : String
  selected : Bool
  position : Point
deriving DecidableEq, Repr

/-- The model root: an ordered sequence of child elements (order is
observable, it is the rendering z-order). -/
structure SModelRoot where
  children : List SElem
deriving DecidableEq, Repr

/-- First element satisfying `p` together with its index.  This is the
combined view of `SModelIndex.getById` and `children.indexOf` used by
the commands. -/
def lookupIdx (p : SElem → Bool) : List SElem → Option (SElem × Nat)
  | [] => none
  | e :: es => if p e then some (e, 0) else (lookupIdx p es).map (fun r => (r.1, r.2 + 1))

/-- Identifier lookup, `SModelIndex.getById`. -/
def getById (m : SModelRoot) (i : String) : Option SElem :=
  (lookupIdx (fun e => e.id == i) m.children).map Prod.fst

/-- Embedding of the in-place mutation `element.position = p` where
`element` was obtained from the index by identifier `i`. -/
def setPosition (m : SModelRoot) (i : String) (p : Point) : SModelRoot :=
  ⟨m.children.map (fun e => if e.id == i then { e with position := p } else e)⟩

/-- Update of the selected flag of an element. -/
def setSelected (e : SElem) (b : Bool) : SElem :=
  { e with selected := b }

/-! ### Move command (`features/move/move.tsx`) -/

/-- A single entry of a `MoveAction`: `ElementMove`. -/
structure ElementMove where
  elementId : String
  fromPosition : Option Point
  toPosition : Point
deriving DecidableEq, Repr

/-- `MoveAction(moves, animate)`. -/
structure MoveAction where
  moves : List ElementMove
  animate : Bool
deriving DecidableEq, Repr

/-- A move resolved against the index: `ResolvedElementMove`.  The
source also stores the element reference; here the identifier stands
for it, positions being read back through the model. -/
structure ResolvedElementMove where
  fromPosition : Point
  elementId : String
  toPosition : Point
deriving DecidableEq, Repr

/-- The `resolvedMoves: Map<string, ResolvedElementMove>` of a
`MoveCommand`, as an insertion-ordered association list keyed by
`elementId`, matching the iteration order of a JavaScript `Map`. -/
abbrev ResolvedMoves := List ResolvedElementMove

/-- `Map.get`: first (with unique keys: only) entry for identifier `i`. -/
def mapGet (rm : ResolvedMoves) (i : String) : Option ResolvedElementMove :=
  rm.find? (fun r => r.elementId == i)

/-- `Map.set`: replace the entry with the same key in place, else append. -/
def mapSet (rm : ResolvedMoves) (r : ResolvedElementMove) : ResolvedMoves :=
  if rm.any (fun x => x.elementId == r.elementId) then
    rm.map (fun x => if x.elementId == r.elementId then r else x)
  else rm ++ [r]

/-- `MoveCommand`: its action and its accumulated resolved moves. -/
structure MoveCommand where
  action : MoveAction
  resolvedMoves : ResolvedMoves
deriving DecidableEq, Repr

/-- `MoveCommand.resolve`: look the element up by identifier; a missing
`fromPosition` is filled with the element's current position; an
unresolvable identifier yields `none`. -/
def MoveCommand.resolve (mv : ElementMove) (m : SModelRoot) : Option ResolvedElementMove :=
  match getById m mv.elementId with
  | some e => some ⟨mv.fromPosition.getD e.position, mv.elementId, mv.toPosition⟩
  | none => none

/-- The running `MoveAnimation`: the model it mutates, the tracked
resolved moves, and the reverse flag. -/
structure MoveAnimation where
  model : SModelRoot
  elementMoves : ResolvedMoves
  reverse : Bool
deriving DecidableEq, Repr

/-- Result of a command operation: the model itself (synchronous
mutation) or a started animation. -/
inductive CmdResult where
  | model (m : SModelRoot)
  | animation (a : MoveAnimation)
deriving DecidableEq, Repr

/-- Body of the `forEach` loop of `MoveCommand.execute`: resolve one
move, record it, and when not animating mutate the position now. -/
def execStep (animate : Bool) (st : ResolvedMoves × SModelRoot) (mv : ElementMove) :
    ResolvedMoves × SModelRoot :=
  match MoveCommand.resolve mv st.2 with
  | some r => (mapSet st.1 r, if animate then st.2 else setPosition st.2 mv.elementId mv.toPosition)
  | none => st

/-- `MoveCommand.execute`: loop over the action's moves, then either
return the (mutated) model or start a forward animation on it. -/
def MoveCommand.execute (cmd : MoveCommand) (root : SModelRoot) : MoveCommand × CmdResult :=
  let st := cmd.action.moves.foldl (execStep cmd.action.animate) (cmd.resolvedMoves, root)
  ({ cmd with resolvedMoves := st.1 },
   if cmd.action.animate then .animation ⟨st.2, st.1, false⟩ else .model st.2)

/-- `MoveCommand.undo`: always a reverse animation over the cached
resolved moves. -/
def MoveCommand.undo (cmd : MoveCommand) (root : SModelRoot) : CmdResult :=
  .animation ⟨root, cmd.resolvedMoves, true⟩

/-- `MoveCommand.redo`: always a forward animation over the cached
resolved moves. -/
def MoveCommand.redo (cmd : MoveCommand) (root : SModelRoot) : CmdResult :=
  .animation ⟨root, cmd.resolvedMoves, false⟩

/-! ### Select command

The implementation (`base/intent/select.ts`) is not among the given
sources; only its unit test `base/intent/select.spec.ts` is.  The
definitions below are therefore modelled from the specification of the
Select command (execute resolves each id, records prior state, sets the
flag, moves newly selected elements to the end of the parent's
children; undo restores flags and order in reverse; redo replays from
the cached resolution; merge always refuses), and they are checked
against the scenario of the unit test. -/

/-- `SelectAction(selectedIds, deselectedIds)`. -/
structure SelectAction where
  selectedIds : List String
  deselectedIds : List String
deriving DecidableEq, Repr

/-- Modelled from the spec: the prior state recorded by
`SelectCommand.execute` for one touched element — its identifier, its
prior selected flag, and, when the element was reordered (selection
only), its prior index in the parent's children. -/
structure SelectMemento where
  elementId : String
  wasSelected : Bool
  priorIndex : Option Nat
deriving DecidableEq, Repr

/-- One elementary select or deselect operation of a `SelectAction`. -/
inductive SelOp where
  | select (i : String)
  | deselect (i : String)
deriving DecidableEq, Repr

/-- The operations of a `SelectAction` in execution order: all
selections, then all deselections. -/
def selOps (a : SelectAction) : List SelOp :=
  a.selectedIds.map SelOp.select ++ a.deselectedIds.map SelOp.deselect

/-- Modelled from the spec: one step of `SelectCommand.execute`,
returning the mementos recorded by this step and the new child list.
Selecting an unselected resolved element records its prior state, sets
`selected := true` and moves it to the end of the children; deselecting
a selected resolved element records its prior state and clears the flag
without reordering; unresolvable or unchanged entries are skipped. -/
def opStep (l : List SElem) (op : SelOp) : List SelectMemento × List SElem :=
  match op with
  | .select i =>
    match lookupIdx (fun e => e.id == i) l with
    | none => ([], l)
    | some (e, idx) =>
      if e.selected then ([], l)
      else ([⟨i, e.selected, some idx⟩], l.eraseIdx idx ++ [setSelected e true])
  | .deselect i =>
    match lookupIdx (fun e => e.id == i) l with
    | none => ([], l)
    | some (e, idx) =>
      if e.selected then ([⟨i, e.selected, none⟩], l.set idx (setSelected e false))
      else ([], l)

/-- Fold step of `SelectCommand.execute`: run one operation and append
its mementos to those recorded so far. -/
def applyOp (st : List SelectMemento × List SElem) (op : SelOp) :
    List SelectMemento × List SElem :=
  (st.1 ++ (opStep st.2 op).1, (opStep st.2 op).2)

/-- Modelled from the spec: `SelectCommand.execute` on the child list,
returning the recorded mementos and the new list. -/
def SelectCommand.executeL (a : SelectAction) (l : List SElem) :
    List SelectMemento × List SElem :=
  (selOps a).foldl applyOp ([], l)

/-- Modelled from the spec: undoing one memento — restore the prior
selected flag, and, when a prior index was recorded, move the element
back from its current place to that index. -/
def undoStep (l : List SElem) (m : SelectMemento) : List SElem :=
  match lookupIdx (fun e => e.id == m.elementId) l with
  | none => l
  | some (e, idx) =>
    match m.priorIndex with
    | none => l.set idx (setSelected e m.wasSelected)
    | some k => (l.eraseIdx idx).insertIdx k (setSelected e m.wasSelected)

/-- Modelled from the spec: `SelectCommand.undo` replays the mementos
in reverse of execute's effects. -/
def SelectCommand.undoL (mems : List SelectMemento) (l : List SElem) : List SElem :=
  mems.reverse.foldl undoStep l

/-- Modelled from the spec: redoing one memento from the cached
resolution — a selection memento re-selects and moves to the end, a
deselection memento clears the flag in place. -/
def redoStep (l : List SElem) (m : SelectMemento) : List SElem :=
  match lookupIdx (fun e => e.id == m.elementId) l with
  | none => l
  | some (e, idx) =>
    match m.priorIndex with
    | none => l.set idx (setSelected e false)
    | some _ => l.eraseIdx idx ++ [setSelected e true]

/-- Modelled from the spec: `SelectCommand.redo` replays the mementos
in execution order. -/
def SelectCommand.redoL (mems : List SelectMemento) (l : List SElem) : List SElem :=
  mems.foldl redoStep l

/-- `SelectCommand`: its action and the cached resolution of the
initial execute. -/
structure SelectCommand where
  action : SelectAction
  mementos : List SelectMemento
deriving DecidableEq, Repr

/-- Modelled from the spec: `SelectCommand.execute` on the model,
caching the resolution for undo and redo. -/
def SelectCommand.execute (cmd : SelectCommand) (root : SModelRoot) :
    SelectCommand × SModelRoot :=
  let st := SelectCommand.executeL cmd.action root.children
  ({ cmd with mementos := st.1 }, ⟨st.2⟩)

/-- Modelled from the spec: `SelectCommand.undo` on the model. -/
def SelectCommand.undo (cmd : SelectCommand) (root : SModelRoot) : SModelRoot :=
  ⟨SelectCommand.undoL cmd.mementos root.children⟩

/-- Modelled from the spec: `SelectCommand.redo` on the model. -/
def SelectCommand.redo (cmd : SelectCommand) (root : SModelRoot) : SModelRoot :=
  ⟨SelectCommand.redoL cmd.mementos root.children⟩

/-! ### The command interface and merge -/

/-- The `ICommand` argument of `merge`, as the commands distinguish it:
a Move command, a Select command, or any other command. -/
inductive ICommand where
  | move (c : MoveCommand)
  | select (c : SelectCommand)
  | other
deriving Repr

/-- Body of the `forEach` loop of `MoveCommand.merge`: an element with
a pending resolved move keeps its `fromPosition` and takes the new
target; otherwise the move is resolved against the context's index and
added.  The model component is threaded unchanged — the loop never
writes to an element. -/
def mergeStep (st : ResolvedMoves × SModelRoot) (mv : ElementMove) :
    ResolvedMoves × SModelRoot :=
  match mapGet st.1 mv.elementId with
  | some existing => (mapSet st.1 { existing with toPosition := mv.toPosition }, st.2)
  | none =>
    match MoveCommand.resolve mv st.2 with
    | some r => (mapSet st.1 r, st.2)
    | none => st

/-- `MoveCommand.merge`: accepts exactly when this command is not
animated and the other is a Move command; then folds the other's moves
into the resolved map. -/
def MoveCommand.merge (cmd : MoveCommand) (othercmd : ICommand) (root : SModelRoot) :
    MoveCommand × SModelRoot × Bool :=
  match othercmd with
  | .move oc =>
    if cmd.action.animate then (cmd, root, false)
    else
      let st := oc.action.moves.foldl mergeStep (cmd.resolvedMoves, root)
      ({ cmd with resolvedMoves := st.1 }, st.2, true)
  | _ => (cmd, root, false)

/-- Modelled from the spec: `SelectCommand.merge` always returns false
and changes nothing. -/
def SelectCommand.merge (cmd : SelectCommand) (othercmd : ICommand) (root : SModelRoot) :
    SelectCommand × SModelRoot × Bool :=
  match othercmd with
  | _ => (cmd, root, false)

/-! ### Move animation interpolation -/

/-- `MoveAnimation.tween(t)`: set every tracked element's position to
the linear interpolation between its resolved endpoints, the endpoints
being swapped when `reverse` is set, and return the model. -/
def MoveAnimation.tween (a : MoveAnimation) (t : ℚ) : SModelRoot :=
  a.elementMoves.foldl
    (fun m em =>
      if a.reverse then
        setPosition m em.elementId
          ⟨(1 - t) * em.toPosition.x + t * em.fromPosition.x,
           (1 - t) * em.toPosition.y + t * em.fromPosition.y⟩
      else
        setPosition m em.elementId
          ⟨(1 - t) * em.fromPosition.x + t * em.toPosition.x,
           (1 - t) * em.fromPosition.y + t * em.toPosition.y⟩)
    a.model

/-! ### Concrete scenario of `select.spec.ts` -/

/-- The node `node0` of the unit test: selected, at (100, 100). -/
def node0 : SElem := ⟨"node0", true, ⟨100, 100⟩⟩

/-- The node `node1` of the unit test: unselected, at (200, 200). -/
def node1 : SElem := ⟨"node1", false, ⟨200, 200⟩⟩

/-- The initial model of the unit test: children ordered
[node1, node0], the selected node0 last. -/
def initialModel : SModelRoot := ⟨[node1, node0]⟩

/-- The select action of the unit test: select node1, deselect node0. -/
def mySelectAction : SelectAction := ⟨["node1"], ["node0"]⟩

/-- The select command of the unit test, before execution. -/
def myCmd : SelectCommand := ⟨mySelectAction, []⟩

/-! ### Simple theorems: merge protocol and undo/redo direction -/

theorem mergeFold_model (moves : List ElementMove) (st : ResolvedMoves × SModelRoot) :
    (moves.foldl mergeStep st).2 = st.2 := by
  induction moves generalizing st with
  | nil => rfl
  | cons mv rest ih =>
    rw [List.foldl_cons, ih]
    unfold mergeStep
    split
    · rfl
    · split
      · rfl
      · rfl

/-- C3.  Move merge acceptance condition: `MoveCommand.merge` returns
true exactly when the receiving command's animate flag is false and the
other command is a Move command, and false otherwise; being a total
function of its inputs, it never throws. -/
theorem move_merge_acceptance (cmd : MoveCommand) (othercmd : ICommand) (root : SModelRoot) :
    (cmd.merge othercmd root).2.2 = true ↔
      (cmd.action.animate = false ∧ ∃ oc, othercmd = ICommand.move oc) := by
  cases othercmd with
  | move oc =>
    unfold MoveCommand.merge
    by_cases h : cmd.action.animate <;> simp [h]
  | select c => simp [MoveCommand.merge]
  | other => simp [MoveCommand.merge]

/-- C6.  Move undo/redo direction: for every Move command, regardless
of its action's animate flag, `undo` starts a reverse animation
(`reverse = true`) and `redo` starts a forward animation
(`reverse = false`), both over the cached resolved moves. -/
theorem move_undo_redo_direction (cmd : MoveCommand) (root : SModelRoot) :
    cmd.undo root = CmdResult.animation ⟨root, cmd.resolvedMoves, true⟩ ∧
    cmd.redo root = CmdResult.animation ⟨root, cmd.resolvedMoves, false⟩ :=
  ⟨rfl, rfl⟩

/-- C8.  Select merge never coalesces: for every other command and
every model, `SelectCommand.merge` returns false, the command
unchanged, and the model unchanged (hence every element's selected flag
and every child index are as before the call). -/
theorem select_merge_never_coalesces (cmd : SelectCommand) (othercmd : ICommand)
    (root : SModelRoot) :
    cmd.merge othercmd root = (cmd, root, false) :=
  rfl

/-- C10.  Move merge has no model effect: `MoveCommand.merge` returns
the model unchanged — every element's position after the call is its
position before it — and leaves the receiving command's action intact;
the only state it changes is the receiving command's resolved-moves
map. -/
theorem move_merge_no_model_effect (cmd : MoveCommand) (othercmd : ICommand)
    (root : SModelRoot) :
    (cmd.merge othercmd root).2.1 = root ∧ (cmd.merge othercmd root).1.action = cmd.action := by
  cases othercmd with
  | move oc =>
    unfold MoveCommand.merge
    by_cases h : cmd.action.animate <;> simp [h, mergeFold_model]
  | select c => exact ⟨rfl, rfl⟩
  | other => exact ⟨rfl, rfl⟩

/-! ### Supporting lemmas: lookup, erase, insert, set on split lists -/

theorem lookupIdx_split (p : SElem → Bool) :
    ∀ (l : List SElem) (e : SElem) (k : Nat), lookupIdx p l = some (e, k) →
      ∃ l₁ l₂, l = l₁ ++ e :: l₂ ∧ l₁.length = k ∧ (∀ x ∈ l₁, p x = false) ∧ p e = true := by
  intro l
  induction l with
  | nil => intro e k h; simp [lookupIdx] at h
  | cons a as ih =>
    intro e k h
    by_cases hpa : p a = true
    · simp [lookupIdx, hpa] at h
      obtain ⟨rfl, rfl⟩ := h
      exact ⟨[], as, rfl, rfl, by simp, hpa⟩
    · rw [Bool.not_eq_true] at hpa
      cases hl : lookupIdx p as with
      | none => simp [lookupIdx, hpa, hl] at h
      | some r =>
        obtain ⟨e₂, k₂⟩ := r
        simp only [lookupIdx, hpa, Bool.false_eq_true, if_false, hl, Option.map_some',
          Option.some.injEq, Prod.mk.injEq] at h
        obtain ⟨rfl, rfl⟩ := h
        obtain ⟨l₁, l₂, rfl, hlen, hfalse, hpe⟩ := ih e₂ k₂ hl
        refine ⟨a :: l₁, l₂, rfl, by simp [hlen], ?_, hpe⟩
        intro x hx
        rcases List.mem_cons.mp hx with rfl | hx
        · exact hpa
        · exact hfalse x hx

theorem lookupIdx_append (p : SElem → Bool) (l₁ l₂ : List SElem) (e : SElem)
    (h₁ : ∀ x ∈ l₁, p x = false) (he : p e = true) :
    lookupIdx p (l₁ ++ e :: l₂) = some (e, l₁.length) := by
  induction l₁ with
  | nil => simp [lookupIdx, he]
  | cons a as ih =>
    have hpa : p a = false := h₁ a (List.mem_cons_self a as)
    simp [lookupIdx, hpa, ih (fun x hx => h₁ x (List.mem_cons_of_mem a hx))]

theorem eraseIdx_append_cons (l₁ l₂ : List SElem) (e : SElem) :
    (l₁ ++ e :: l₂).eraseIdx l₁.length = l₁ ++ l₂ := by
  induction l₁ with
  | nil => rfl
  | cons a as ih => simpa [List.eraseIdx] using ih

theorem insertIdx_append_cons (l₁ l₂ : List SElem) (e : SElem) :
    (l₁ ++ l₂).insertIdx l₁.length e = l₁ ++ e :: l₂ := by
  induction l₁ with
  | nil => rfl
  | cons a as ih => simpa [List.insertIdx_succ_cons] using ih

theorem set_append_cons (l₁ l₂ : List SElem) (e x : SElem) :
    (l₁ ++ e :: l₂).set l₁.length x = l₁ ++ x :: l₂ := by
  induction l₁ with
  | nil => rfl
  | cons a as ih => simp [List.set, ih]

theorem undoL_append (m₁ m₂ : List SelectMemento) (l : List SElem) :
    SelectCommand.undoL (m₁ ++ m₂) l =
      SelectCommand.undoL m₁ (SelectCommand.undoL m₂ l) := by
  simp [SelectCommand.undoL, List.foldl_append]

theorem id_notmem_of_nodup_split (l₁ l₂ : List SElem) (e : SElem)
    (hnd : ((l₁ ++ e :: l₂).map SElem.id).Nodup) :
    ∀ x ∈ l₂, x.id ≠ e.id := by
  intro x hx heq
  rw [List.map_append, List.map_cons] at hnd
  have h := List.nodup_middle.mp hnd
  rw [List.nodup_cons] at h
  exact h.1 (heq ▸ List.mem_append_right _ (List.mem_map_of_mem _ hx))

theorem setSelected_setSelected (e : SElem) (b c : Bool) :
    setSelected (setSelected e b) c = setSelected e c := rfl

theorem setSelected_eq_self {e : SElem} {b : Bool} (h : e.selected = b) :
    setSelected e b = e := by
  subst h
  rfl

theorem opStep_nodup (op : SelOp) (l : List SElem) (hnd : (l.map SElem.id).Nodup) :
    ((opStep l op).2.map SElem.id).Nodup := by
  cases op with
  | select i =>
    cases hlk : lookupIdx (fun e => e.id == i) l with
    | none => simpa [opStep, hlk] using hnd
    | some r =>
      obtain ⟨e, idx⟩ := r
      cases hsel : e.selected with
      | true => simpa [opStep, hlk, hsel] using hnd
      | false =>
        simp only [opStep, hlk, hsel, Bool.false_eq_true, if_false]
        obtain ⟨l₁, l₂, rfl, hlen, hfalse, hpe⟩ := lookupIdx_split _ l e idx hlk
        subst hlen
        rw [eraseIdx_append_cons]
        have hperm : (((l₁ ++ l₂) ++ [setSelected e true]).map SElem.id).Perm
            (((l₁ ++ e :: l₂).map SElem.id)) := by
          simp only [List.map_append, List.map_cons, setSelected, List.map_nil]
          exact (List.perm_append_singleton _ _).trans List.perm_middle.symm
        exact hperm.symm.nodup hnd
  | deselect i =>
    cases hlk : lookupIdx (fun e => e.id == i) l with
    | none => simpa [opStep, hlk] using hnd
    | some r =>
      obtain ⟨e, idx⟩ := r
      cases hsel : e.selected with
      | false => simpa [opStep, hlk, hsel] using hnd
      | true =>
        simp only [opStep, hlk, hsel, if_true]
        obtain ⟨l₁, l₂, rfl, hlen, hfalse, hpe⟩ := lookupIdx_split _ l e idx hlk
        subst hlen
        rw [set_append_cons]
        simpa [setSelected] using hnd

theorem opStep_roundtrip (op : SelOp) (l : List SElem)
    (hnd : (l.map SElem.id).Nodup) :
    SelectCommand.undoL (opStep l op).1 (opStep l op).2 = l := by
  cases op with
  | select i =>
    cases hlk : lookupIdx (fun e => e.id == i) l with
    | none => simp [opStep, hlk, SelectCommand.undoL]
    | some r =>
      obtain ⟨e, idx⟩ := r
      cases hsel : e.selected with
      | true => simp [opStep, hlk, hsel, SelectCommand.undoL]
      | false =>
        simp only [opStep, hlk, hsel, Bool.false_eq_true, if_false]
        obtain ⟨l₁, l₂, rfl, hlen, hfalse, hpe⟩ := lookupIdx_split _ l e idx hlk
        subst hlen
        have heid : e.id = i := by simpa using hpe
        have h₁ : ∀ x ∈ l₁ ++ l₂, (x.id == i) = false := by
          intro x hx
          rcases List.mem_append.mp hx with hx | hx
          · exact hfalse x hx
          · have hni : x.id ≠ i := heid ▸ id_notmem_of_nodup_split l₁ l₂ e hnd x hx
            exact beq_eq_false_iff_ne.mpr hni
        have hmem : lookupIdx (fun x => x.id == i) ((l₁ ++ l₂) ++ [setSelected e true]) =
            some (setSelected e true, (l₁ ++ l₂).length) :=
          lookupIdx_append (fun x => x.id == i) (l₁ ++ l₂) [] (setSelected e true) h₁ hpe
        rw [eraseIdx_append_cons]
        simp only [SelectCommand.undoL, List.reverse_cons, List.reverse_nil, List.nil_append,
          List.foldl_cons, List.foldl_nil, undoStep, hmem]
        have herase : ((l₁ ++ l₂) ++ [setSelected e true]).eraseIdx (l₁ ++ l₂).length =
            l₁ ++ l₂ := by
          simpa using eraseIdx_append_cons (l₁ ++ l₂) [] (setSelected e true)
        rw [herase, setSelected_setSelected, setSelected_eq_self hsel, insertIdx_append_cons]
  | deselect i =>
    cases hlk : lookupIdx (fun e => e.id == i) l with
    | none => simp [opStep, hlk, SelectCommand.undoL]
    | some r =>
      obtain ⟨e, idx⟩ := r
      cases hsel : e.selected with
      | false => simp [opStep, hlk, hsel, SelectCommand.undoL]
      | true =>
        simp only [opStep, hlk, hsel, if_true]
        obtain ⟨l₁, l₂, rfl, hlen, hfalse, hpe⟩ := lookupIdx_split _ l e idx hlk
        subst hlen
        rw [set_append_cons]
        have hmem : lookupIdx (fun x => x.id == i) (l₁ ++ setSelected e false :: l₂) =
            some (setSelected e false, l₁.length) :=
          lookupIdx_append (fun x => x.id == i) l₁ l₂ (setSelected e false) hfalse hpe
        simp only [SelectCommand.undoL, List.reverse_cons, List.reverse_nil, List.nil_append,
          List.foldl_cons, List.foldl_nil, undoStep, hmem]
        rw [set_append_cons, setSelected_setSelected, setSelected_eq_self hsel]

theorem execFold_decompose (ops : List SelOp) (ms : List SelectMemento) (l : List SElem) :
    ops.foldl applyOp (ms, l) =
      (ms ++ (ops.foldl applyOp ([], l)).1, (ops.foldl applyOp ([], l)).2) := by
  induction ops generalizing ms l with
  | nil => simp
  | cons op rest ih =>
    simp only [List.foldl_cons, applyOp, List.nil_append]
    rw [ih (ms ++ (opStep l op).1) (opStep l op).2, ih (opStep l op).1 (opStep l op).2]
    simp [List.append_assoc]

theorem execFold_roundtrip (ops : List SelOp) (l : List SElem)
    (hnd : (l.map SElem.id).Nodup) :
    SelectCommand.undoL (ops.foldl applyOp ([], l)).1 (ops.foldl applyOp ([], l)).2 = l := by
  induction ops generalizing l with
  | nil => rfl
  | cons op rest ih =>
    rw [List.foldl_cons]
    have hd : applyOp ([], l) op = ((opStep l op).1, (opStep l op).2) := rfl
    rw [hd, execFold_decompose, undoL_append, ih _ (opStep_nodup op l hnd)]
    exact opStep_roundtrip op l hnd

/-- C1.  Select/deselect round-trip: for every model with element
identifiers unique in the root (the index invariant of the data model)
and every `SelectAction`, running `undo` after `execute` restores the
model exactly — in particular, for every resolved element of the
selected and deselected id sets, both its selected flag and its index
in its parent's child sequence are as before execute. -/
theorem select_undo_roundtrip (cmd : SelectCommand) (root : SModelRoot)
    (hnd : (root.children.map SElem.id).Nodup) :
    SelectCommand.undo (cmd.execute root).1 (cmd.execute root).2 = root := by
  obtain ⟨l⟩ := root
  simp only [SelectCommand.execute, SelectCommand.undo, SelectCommand.executeL]
  exact congrArg SModelRoot.mk (execFold_roundtrip (selOps cmd.action) l hnd)

/-- Witness for C1: the round-trip applied to the concrete model and
action of the unit test. -/
theorem select_undo_roundtrip_witness :
    (initialModel.children.map SElem.id).Nodup ∧
      SelectCommand.undo (myCmd.execute initialModel).1 (myCmd.execute initialModel).2 =
        initialModel :=
  ⟨by decide, select_undo_roundtrip myCmd initialModel (by decide)⟩

/-- C4.  Select execute reordering, on the scenario of the unit test:
with children ordered [node1 (unselected), node0 (selected)], executing
`SelectAction([node1], [node0])` sets node1's flag, clears node0's
flag, moves node1 to the last position (order [node0, node1], node0 not
reordered), and redo after undo reproduces exactly this state. -/
theorem select_execute_reorder_scenario :
    getById (myCmd.execute initialModel).2 "node1" = some (setSelected node1 true) ∧
    getById (myCmd.execute initialModel).2 "node0" = some (setSelected node0 false) ∧
    (myCmd.execute initialModel).2.children =
      [setSelected node0 false, setSelected node1 true] ∧
    (myCmd.execute initialModel).1.redo
        ((myCmd.execute initialModel).1.undo (myCmd.execute initialModel).2) =
      (myCmd.execute initialModel).2 := by
  decide

/-! ### Supporting lemmas: lookup after a position update -/

theorem lookupIdx_map_of_pred (p : SElem → Bool) (f : SElem → SElem)
    (hf : ∀ e, p (f e) = p e) (l : List SElem) :
    lookupIdx p (l.map f) = (lookupIdx p l).map (fun r => (f r.1, r.2)) := by
  induction l with
  | nil => rfl
  | cons a as ih =>
    simp only [List.map_cons, lookupIdx, hf a, ih]
    by_cases hpa : p a = true
    · simp [hpa]
    · rw [Bool.not_eq_true] at hpa
      simp only [hpa, Bool.false_eq_true, if_false, Option.map_map]
      cases lookupIdx p as <;> rfl

theorem setPosition_arg_id (j : String) (p : Point) (x : SElem) :
    (if x.id == j then { x with position := p } else x).id = x.id := by
  by_cases hx : (x.id == j) = true <;> simp [hx]

theorem getById_setPosition_ne (m : SModelRoot) (i j : String) (p : Point) (h : j ≠ i) :
    getById (setPosition m j p) i = getById m i := by
  unfold getById setPosition
  rw [lookupIdx_map_of_pred _ _ (fun x => by rw [setPosition_arg_id])]
  cases hl : lookupIdx (fun x => x.id == i) m.children with
  | none => rfl
  | some r =>
    obtain ⟨e, k⟩ := r
    obtain ⟨l₁, l₂, heq, hlen, hfalse, hpe⟩ := lookupIdx_split _ _ _ _ hl
    have heid : e.id = i := by simpa using hpe
    have hej : (e.id == j) = false := beq_eq_false_iff_ne.mpr (by rw [heid]; exact fun hh => h hh.symm)
    have hne : e.id ≠ j := beq_eq_false_iff_ne.mp hej
    simp [hej, hne]

theorem getById_setPosition_self (m : SModelRoot) (i : String) (p : Point) (e : SElem)
    (h : getById m i = some e) :
    getById (setPosition m i p) i = some { e with position := p } := by
  unfold getById setPosition
  rw [lookupIdx_map_of_pred _ _ (fun x => by rw [setPosition_arg_id])]
  unfold getById at h
  cases hl : lookupIdx (fun x => x.id == i) m.children with
  | none => rw [hl] at h; simp at h
  | some r =>
    obtain ⟨e₂, k⟩ := r
    rw [hl] at h
    simp only [Option.map_some'] at h ⊢
    obtain rfl : e₂ = e := by simpa using h
    obtain ⟨l₁, l₂, heq, hlen, hfalse, hpe⟩ := lookupIdx_split _ _ _ _ hl
    simp [hpe]

/-! ### Move execute semantics -/

theorem execFold_model_animate (moves : List ElementMove) (st : ResolvedMoves × SModelRoot) :
    (moves.foldl (execStep true) st).2 = st.2 := by
  induction moves generalizing st with
  | nil => rfl
  | cons mv rest ih =>
    rw [List.foldl_cons, ih]
    unfold execStep
    cases MoveCommand.resolve mv st.2 <;> simp

theorem execFold_getById_ne (moves : List ElementMove) (st : ResolvedMoves × SModelRoot)
    (i : String) (h : ∀ mv ∈ moves, mv.elementId ≠ i) :
    getById (moves.foldl (execStep false) st).2 i = getById st.2 i := by
  induction moves generalizing st with
  | nil => rfl
  | cons mv rest ih =>
    rw [List.foldl_cons, ih _ (fun m hm => h m (List.mem_cons_of_mem _ hm))]
    unfold execStep
    cases MoveCommand.resolve mv st.2 with
    | none => rfl
    | some r =>
      simp only [Bool.false_eq_true, if_false]
      exact getById_setPosition_ne st.2 i mv.elementId mv.toPosition
        (h mv (List.mem_cons_self _ _))

theorem execFold_sets_position (moves : List ElementMove) (rm : ResolvedMoves)
    (root : SModelRoot) (hnd : (moves.map ElementMove.elementId).Nodup) :
    ∀ mv ∈ moves, ∀ e, getById root mv.elementId = some e →
      getById (moves.foldl (execStep false) (rm, root)).2 mv.elementId =
        some { e with position := mv.toPosition } := by
  induction moves generalizing rm root with
  | nil => intro mv hmv; exact absurd hmv (List.not_mem_nil mv)
  | cons mv₀ rest ih =>
    intro mv hmv e he
    rw [List.map_cons, List.nodup_cons] at hnd
    rcases List.mem_cons.mp hmv with rfl | hmem
    · rw [List.foldl_cons]
      have hstep : execStep false (rm, root) mv =
          (mapSet rm ⟨mv.fromPosition.getD e.position, mv.elementId, mv.toPosition⟩,
           setPosition root mv.elementId mv.toPosition) := by
        simp [execStep, MoveCommand.resolve, he]
      rw [hstep]
      have hne : ∀ m ∈ rest, m.elementId ≠ mv.elementId := by
        intro m hm hEq
        exact hnd.1 (hEq ▸ List.mem_map_of_mem _ hm)
      rw [execFold_getById_ne rest _ _ hne]
      exact getById_setPosition_self root mv.elementId mv.toPosition e he
    · rw [List.foldl_cons]
      have hne : mv₀.elementId ≠ mv.elementId := by
        intro hEq
        exact hnd.1 (hEq ▸ List.mem_map_of_mem _ hmem)
      have hpre : getById (execStep false (rm, root) mv₀).2 mv.elementId = some e := by
        unfold execStep
        cases hr : MoveCommand.resolve mv₀ (rm, root).2 with
        | none => simpa using he
        | some r =>
          simp only [Bool.false_eq_true, if_false]
          rw [getById_setPosition_ne root mv.elementId mv₀.elementId _ hne]
          exact he
      exact ih _ _ hnd.2 mv hmem e hpre

/-- C5.  Move execute semantics: `resolve` fills an omitted
`fromPosition` with the element's current position; with `animate`
true, execute mutates nothing synchronously and returns a started
forward animation on the unchanged model; with `animate` false (and
distinct move targets, as produced by a drag gesture), execute returns
the model itself with each resolved element's position set to its
move's `toPosition`. -/
theorem move_execute_semantics (cmd : MoveCommand) (root : SModelRoot)
    (hnd : (cmd.action.moves.map ElementMove.elementId).Nodup) :
    (∀ mv e, mv.fromPosition = none → getById root mv.elementId = some e →
        MoveCommand.resolve mv root = some ⟨e.position, mv.elementId, mv.toPosition⟩) ∧
    (cmd.action.animate = true →
        (cmd.execute root).2 =
          CmdResult.animation ⟨root, (cmd.execute root).1.resolvedMoves, false⟩) ∧
    (cmd.action.animate = false →
        ∃ m, (cmd.execute root).2 = CmdResult.model m ∧
          ∀ mv ∈ cmd.action.moves, ∀ e, getById root mv.elementId = some e →
            getById m mv.elementId = some { e with position := mv.toPosition }) := by
  refine ⟨?_, ?_, ?_⟩
  · intro mv e hfrom he
    simp [MoveCommand.resolve, he, hfrom]
  · intro hanim
    simp only [MoveCommand.execute, hanim, if_true]
    rw [execFold_model_animate]
  · intro hanim
    refine ⟨(cmd.action.moves.foldl (execStep false) (cmd.resolvedMoves, root)).2, ?_, ?_⟩
    · simp [MoveCommand.execute, hanim]
    · intro mv hmv e he
      exact execFold_sets_position cmd.action.moves cmd.resolvedMoves root hnd mv hmv e he

/-- A two-node model used as a concrete input for the Move theorems. -/
def moveRoot : SModelRoot := ⟨[⟨"n1", false, ⟨0, 0⟩⟩, ⟨"n2", false, ⟨5, 5⟩⟩]⟩

/-- An animated single-move command on `moveRoot`. -/
def moveCmdT : MoveCommand := ⟨⟨[⟨"n1", none, ⟨10, 10⟩⟩], true⟩, []⟩

/-- A non-animated single-move command on `moveRoot`. -/
def moveCmdF : MoveCommand := ⟨⟨[⟨"n1", none, ⟨10, 10⟩⟩], false⟩, []⟩

/-- Witness for C5: the semantics applied to concrete animated and
non-animated commands on `moveRoot`. -/
theorem move_execute_semantics_witness :
    (moveCmdT.execute moveRoot).2 =
      CmdResult.animation ⟨moveRoot, (moveCmdT.execute moveRoot).1.resolvedMoves, false⟩ ∧
    MoveCommand.resolve ⟨"n1", none, ⟨10, 10⟩⟩ moveRoot =
      some ⟨⟨0, 0⟩, "n1", ⟨10, 10⟩⟩ ∧
    (∃ m, (moveCmdF.execute moveRoot).2 = CmdResult.model m ∧
      ∀ mv ∈ moveCmdF.action.moves, ∀ e, getById moveRoot mv.elementId = some e →
        getById m mv.elementId = some { e with position := mv.toPosition }) :=
  ⟨(move_execute_semantics moveCmdT moveRoot (by decide)).2.1 rfl,
   (move_execute_semantics moveCmdT moveRoot (by decide)).1 ⟨"n1", none, ⟨10, 10⟩⟩
     ⟨"n1", false, ⟨0, 0⟩⟩ rfl (by decide),
   (move_execute_semantics moveCmdF moveRoot (by decide)).2.2 rfl⟩

/-! ### Animation interpolation -/

theorem setFold_getById_ne (g : ResolvedElementMove → Point) (ems : ResolvedMoves)
    (m : SModelRoot) (i : String) (h : ∀ em ∈ ems, em.elementId ≠ i) :
    getById (ems.foldl (fun acc em => setPosition acc em.elementId (g em)) m) i =
      getById m i := by
  induction ems generalizing m with
  | nil => rfl
  | cons em rest ih =>
    rw [List.foldl_cons, ih _ (fun x hx => h x (List.mem_cons_of_mem _ hx))]
    exact getById_setPosition_ne m i em.elementId (g em) (h em (List.mem_cons_self _ _))

theorem setFold_getById_self (g : ResolvedElementMove → Point) (ems : ResolvedMoves)
    (m : SModelRoot) (i : String) (em : ResolvedElementMove) (e : SElem)
    (hnd : (ems.map ResolvedElementMove.elementId).Nodup)
    (hget : mapGet ems i = some em)
    (he : getById m i = some e) :
    getById (ems.foldl (fun acc em => setPosition acc em.elementId (g em)) m) i =
      some { e with position := g em } := by
  induction ems generalizing m with
  | nil => simp [mapGet] at hget
  | cons em₀ rest ih =>
    rw [List.map_cons, List.nodup_cons] at hnd
    rw [List.foldl_cons]
    by_cases h₀ : (em₀.elementId == i) = true
    · have hkey : em₀.elementId = i := by simpa using h₀
      have hfind : List.find? (fun r => r.elementId == i) (em₀ :: rest) = some em := hget
      simp only [List.find?, h₀] at hfind
      have hemeq : em = em₀ := by
        injection hfind with hh
        exact hh.symm
      subst hemeq
      have hrest : ∀ x ∈ rest, x.elementId ≠ i := by
        intro x hx hEq
        exact hnd.1 (hkey ▸ hEq ▸ List.mem_map_of_mem _ hx)
      rw [setFold_getById_ne g rest _ i hrest, hkey]
      exact getById_setPosition_self m i (g em) e he
    · have h₀f : (em₀.elementId == i) = false := by simpa using h₀
      have hfind : List.find? (fun r => r.elementId == i) (em₀ :: rest) = some em := hget
      simp only [List.find?, h₀f] at hfind
      have hget' : mapGet rest i = some em := hfind
      have hne : em₀.elementId ≠ i := by simpa using h₀
      have he' : getById (setPosition m em₀.elementId (g em₀)) i = some e := by
        rw [getById_setPosition_ne m i em₀.elementId (g em₀) hne]
        exact he
      exact ih _ hnd.2 hget' he'

theorem tween_getById (a : MoveAnimation) (t : ℚ) (i : String)
    (em : ResolvedElementMove) (e : SElem)
    (hnd : (a.elementMoves.map ResolvedElementMove.elementId).Nodup)
    (hget : mapGet a.elementMoves i = some em)
    (he : getById a.model i = some e) :
    getById (a.tween t) i = some { e with position :=
      if a.reverse then
        ⟨(1 - t) * em.toPosition.x + t * em.fromPosition.x,
         (1 - t) * em.toPosition.y + t * em.fromPosition.y⟩
      else
        ⟨(1 - t) * em.fromPosition.x + t * em.toPosition.x,
         (1 - t) * em.fromPosition.y + t * em.toPosition.y⟩ } := by
  cases hrev : a.reverse with
  | true =>
    unfold MoveAnimation.tween
    simp only [hrev, if_true]
    exact setFold_getById_self
      (fun em => ⟨(1 - t) * em.toPosition.x + t * em.fromPosition.x,
                  (1 - t) * em.toPosition.y + t * em.fromPosition.y⟩)
      a.elementMoves a.model i em e hnd hget he
  | false =>
    unfold MoveAnimation.tween
    simp only [hrev, Bool.false_eq_true, if_false]
    exact setFold_getById_self
      (fun em => ⟨(1 - t) * em.fromPosition.x + t * em.toPosition.x,
                  (1 - t) * em.fromPosition.y + t * em.toPosition.y⟩)
      a.elementMoves a.model i em e hnd hget he

/-- C7.  Interpolation formula and endpoint exactness: at every time
`t`, `tween` sets a tracked element's position to the linear
interpolation of its resolved endpoints, the endpoints swapped when
`reverse` is set; at `t = 1` the position is exactly `toPosition`
(forward) respectively exactly `fromPosition` (reverse), with no
residual interpolation error. -/
theorem move_animation_tween_exact (a : MoveAnimation) (t : ℚ) (i : String)
    (em : ResolvedElementMove) (e : SElem)
    (hnd : (a.elementMoves.map ResolvedElementMove.elementId).Nodup)
    (hget : mapGet a.elementMoves i = some em)
    (he : getById a.model i = some e) :
    getById (a.tween t) i = some { e with position :=
      if a.reverse then
        ⟨(1 - t) * em.toPosition.x + t * em.fromPosition.x,
         (1 - t) * em.toPosition.y + t * em.fromPosition.y⟩
      else
        ⟨(1 - t) * em.fromPosition.x + t * em.toPosition.x,
         (1 - t) * em.fromPosition.y + t * em.toPosition.y⟩ } ∧
    (a.reverse = false →
      getById (a.tween 1) i = some { e with position := em.toPosition }) ∧
    (a.reverse = true →
      getById (a.tween 1) i = some { e with position := em.fromPosition }) := by
  refine ⟨tween_getById a t i em e hnd hget he, ?_, ?_⟩
  · intro hrev
    have h1 := tween_getById a 1 i em e hnd hget he
    rw [hrev] at h1
    simp only [Bool.false_eq_true, if_false] at h1
    have hx : ((1 : ℚ) - 1) * em.fromPosition.x + 1 * em.toPosition.x = em.toPosition.x := by
      ring
    have hy : ((1 : ℚ) - 1) * em.fromPosition.y + 1 * em.toPosition.y = em.toPosition.y := by
      ring
    rw [hx, hy] at h1
    exact h1
  · intro hrev
    have h1 := tween_getById a 1 i em e hnd hget he
    rw [hrev] at h1
    simp only [if_true] at h1
    have hx : ((1 : ℚ) - 1) * em.toPosition.x + 1 * em.fromPosition.x = em.fromPosition.x := by
      ring
    have hy : ((1 : ℚ) - 1) * em.toPosition.y + 1 * em.fromPosition.y = em.fromPosition.y := by
      ring
    rw [hx, hy] at h1
    exact h1

/-- A concrete forward animation on `moveRoot` moving n1 from (0, 0)
to (10, 10). -/
def tweenAnim : MoveAnimation := ⟨moveRoot, [⟨⟨0, 0⟩, "n1", ⟨10, 10⟩⟩], false⟩

/-- Witness for C7: the interpolation theorem applied to `tweenAnim`
at t = 1/2 and at the endpoint t = 1. -/
theorem move_animation_tween_exact_witness :
    getById (tweenAnim.tween (1 / 2)) "n1" = some ⟨"n1", false, ⟨5, 5⟩⟩ ∧
    getById (tweenAnim.tween 1) "n1" = some ⟨"n1", false, ⟨10, 10⟩⟩ := by
  constructor
  · have h := (move_animation_tween_exact tweenAnim (1 / 2) "n1" ⟨⟨0, 0⟩, "n1", ⟨10, 10⟩⟩
      ⟨"n1", false, ⟨0, 0⟩⟩ (by decide) (by decide) (by decide)).1
    rw [h]
    norm_num [tweenAnim]
  · have h := (move_animation_tween_exact tweenAnim 1 "n1" ⟨⟨0, 0⟩, "n1", ⟨10, 10⟩⟩
      ⟨"n1", false, ⟨0, 0⟩⟩ (by decide) (by decide) (by decide)).2.1 rfl
    exact h

/-! ### Merge accumulation -/

theorem mapGet_some_key (rm : ResolvedMoves) (i : String) (r : ResolvedElementMove)
    (h : mapGet rm i = some r) : r.elementId = i := by
  have := List.find?_some h
  simpa using this

theorem find?_replace (rm : ResolvedMoves) (r : ResolvedElementMove)
    (h : rm.any (fun x => x.elementId == r.elementId) = true) :
    (rm.map (fun x => if x.elementId == r.elementId then r else x)).find?
      (fun x => x.elementId == r.elementId) = some r := by
  induction rm with
  | nil => simp at h
  | cons a as ih =>
    by_cases ha : (a.elementId == r.elementId) = true
    · simp only [List.map_cons, ha, if_true, List.find?, beq_self_eq_true]
    · have ha' : (a.elementId == r.elementId) = false := by simpa using ha
      have h' : as.any (fun x => x.elementId == r.elementId) = true := by
        simpa [ha'] using h
      simp only [List.map_cons, ha', Bool.false_eq_true, if_false, List.find?]
      exact ih h'

theorem find?_append_new (rm : ResolvedMoves) (r : ResolvedElementMove)
    (h : rm.any (fun x => x.elementId == r.elementId) = false) :
    (rm ++ [r]).find? (fun x => x.elementId == r.elementId) = some r := by
  induction rm with
  | nil => simp [List.find?]
  | cons a as ih =>
    simp only [List.any_cons, Bool.or_eq_false_iff] at h
    simp [List.find?, h.1, ih h.2]

theorem mapGet_mapSet_self (rm : ResolvedMoves) (r : ResolvedElementMove) :
    mapGet (mapSet rm r) r.elementId = some r := by
  unfold mapGet mapSet
  by_cases h : rm.any (fun x => x.elementId == r.elementId) = true
  · rw [if_pos h]
    exact find?_replace rm r h
  · rw [if_neg h]
    exact find?_append_new rm r (by simpa using h)

theorem find?_map_preserve (rm : ResolvedMoves) (r : ResolvedElementMove) (i : String)
    (h : r.elementId ≠ i) :
    (rm.map (fun x => if x.elementId == r.elementId then r else x)).find?
      (fun x => x.elementId == i) = rm.find? (fun x => x.elementId == i) := by
  induction rm with
  | nil => rfl
  | cons a as ih =>
    by_cases ha : (a.elementId == r.elementId) = true
    · have haeq : a.elementId = r.elementId := by simpa using ha
      have hai : (a.elementId == i) = false := by
        rw [haeq]
        exact beq_eq_false_iff_ne.mpr h
      have hri : (r.elementId == i) = false := beq_eq_false_iff_ne.mpr h
      simp only [List.map_cons, ha, if_true, List.find?, hri, hai, Bool.false_eq_true]
      exact ih
    · have ha' : (a.elementId == r.elementId) = false := by simpa using ha
      by_cases pai : (a.elementId == i) = true
      · simp only [List.map_cons, ha', Bool.false_eq_true, if_false, List.find?, pai, if_true]
      · have pai' : (a.elementId == i) = false := by simpa using pai
        simp only [List.map_cons, ha', Bool.false_eq_true, if_false, List.find?, pai']
        exact ih

theorem mapGet_mapSet_ne (rm : ResolvedMoves) (r : ResolvedElementMove) (i : String)
    (h : r.elementId ≠ i) :
    mapGet (mapSet rm r) i = mapGet rm i := by
  unfold mapGet mapSet
  by_cases hany : rm.any (fun x => x.elementId == r.elementId) = true
  · rw [if_pos hany]
    exact find?_map_preserve rm r i h
  · rw [if_neg hany]
    rw [List.find?_append]
    have hsing : List.find? (fun x => x.elementId == i) [r] = none := by
      simp [List.find?, beq_eq_false_iff_ne.mpr h]
    rw [hsing, Option.or_none]

theorem mapSet_keys_nodup (rm : ResolvedMoves) (r : ResolvedElementMove)
    (h : (rm.map ResolvedElementMove.elementId).Nodup) :
    ((mapSet rm r).map ResolvedElementMove.elementId).Nodup := by
  unfold mapSet
  by_cases hany : rm.any (fun x => x.elementId == r.elementId) = true
  · rw [if_pos hany]
    have hkeys : (rm.map (fun x => if x.elementId == r.elementId then r else x)).map
        ResolvedElementMove.elementId = rm.map ResolvedElementMove.elementId := by
      rw [List.map_map]
      apply List.map_congr_left
      intro x hx
      by_cases hxr : (x.elementId == r.elementId) = true
      · have : x.elementId = r.elementId := by simpa using hxr
        simp [Function.comp, hxr, this]
      · have hxr' : (x.elementId == r.elementId) = false := by simpa using hxr
        simp [Function.comp, hxr']
    rw [hkeys]
    exact h
  · rw [if_neg hany, List.map_append]
    have hnotin : r.elementId ∉ rm.map ResolvedElementMove.elementId := by
      intro hmem
      obtain ⟨x, hx, hxe⟩ := List.mem_map.mp hmem
      exact hany (List.any_eq_true.mpr ⟨x, hx, by simp [hxe]⟩)
    simp [List.nodup_append, h, hnotin]

theorem mergeStep_keys_nodup (st : ResolvedMoves × SModelRoot) (mv : ElementMove)
    (h : (st.1.map ResolvedElementMove.elementId).Nodup) :
    ((mergeStep st mv).1.map ResolvedElementMove.elementId).Nodup := by
  unfold mergeStep
  cases mapGet st.1 mv.elementId with
  | some ex => exact mapSet_keys_nodup _ _ h
  | none =>
    cases MoveCommand.resolve mv st.2 with
    | some r => exact mapSet_keys_nodup _ _ h
    | none => exact h

theorem mergeFold_keys_nodup (moves : List ElementMove) (st : ResolvedMoves × SModelRoot)
    (h : (st.1.map ResolvedElementMove.elementId).Nodup) :
    (((moves.foldl mergeStep st).1).map ResolvedElementMove.elementId).Nodup := by
  induction moves generalizing st with
  | nil => exact h
  | cons mv rest ih =>
    rw [List.foldl_cons]
    exact ih _ (mergeStep_keys_nodup st mv h)

theorem mergeFold_mapGet_ne (moves : List ElementMove) (st : ResolvedMoves × SModelRoot)
    (i : String) (h : ∀ mv ∈ moves, mv.elementId ≠ i) :
    mapGet (moves.foldl mergeStep st).1 i = mapGet st.1 i := by
  induction moves generalizing st with
  | nil => rfl
  | cons mv rest ih =>
    rw [List.foldl_cons, ih _ (fun m hm => h m (List.mem_cons_of_mem _ hm))]
    have hne : mv.elementId ≠ i := h mv (List.mem_cons_self _ _)
    unfold mergeStep
    cases hg : mapGet st.1 mv.elementId with
    | some ex =>
      have hkey : ex.elementId = mv.elementId := mapGet_some_key _ _ _ hg
      exact mapGet_mapSet_ne _ _ _ (by rw [hkey]; exact hne)
    | none =>
      cases hr : MoveCommand.resolve mv st.2 with
      | some r =>
        have hkey : r.elementId = mv.elementId := by
          unfold MoveCommand.resolve at hr
          cases hgb : getById st.2 mv.elementId with
          | some e => rw [hgb] at hr; simp at hr; rw [← hr]
          | none => rw [hgb] at hr; simp at hr
        exact mapGet_mapSet_ne _ _ _ (by rw [hkey]; exact hne)
      | none => rfl

theorem mergeStep_existing (st : ResolvedMoves × SModelRoot) (mv : ElementMove)
    (r : ResolvedElementMove) (hg : mapGet st.1 mv.elementId = some r) :
    mergeStep st mv = (mapSet st.1 { r with toPosition := mv.toPosition }, st.2) := by
  unfold mergeStep
  rw [hg]

theorem mergeStep_new (st : ResolvedMoves × SModelRoot) (mv : ElementMove)
    (r : ResolvedElementMove) (hg : mapGet st.1 mv.elementId = none)
    (hres : MoveCommand.resolve mv st.2 = some r) :
    mergeStep st mv = (mapSet st.1 r, st.2) := by
  unfold mergeStep
  rw [hg, hres]

/-- C2.  Move merge accumulation: when a non-animated Move command
holding a resolved move for an element merges another Move command
with a move for the same element, the pending move keeps its original
`fromPosition` and takes the new `toPosition`; undoing the merged
command (a reverse animation at t = 1) therefore brings the element
back to the original `fromPosition`, not to any intermediate target;
a move for an element with no pending entry is resolved against the
context's index and added. -/
theorem move_merge_accumulation (cmd oc : MoveCommand) (root : SModelRoot)
    (mv : ElementMove) (i : String)
    (hanim : cmd.action.animate = false)
    (hmem : mv ∈ oc.action.moves)
    (hid : mv.elementId = i)
    (hnd : (oc.action.moves.map ElementMove.elementId).Nodup)
    (hndc : (cmd.resolvedMoves.map ResolvedElementMove.elementId).Nodup) :
    (∀ r, mapGet cmd.resolvedMoves i = some r →
       mapGet (cmd.merge (ICommand.move oc) root).1.resolvedMoves i =
         some { r with toPosition := mv.toPosition }) ∧
    (∀ e, mapGet cmd.resolvedMoves i = none → getById root i = some e →
       mapGet (cmd.merge (ICommand.move oc) root).1.resolvedMoves i =
         some ⟨mv.fromPosition.getD e.position, i, mv.toPosition⟩) ∧
    (∀ r m e, mapGet cmd.resolvedMoves i = some r → getById m i = some e →
       getById ((MoveAnimation.mk m
           (cmd.merge (ICommand.move oc) root).1.resolvedMoves true).tween 1) i =
         some { e with position := r.fromPosition }) := by
  subst hid
  obtain ⟨pre, post, heq⟩ := List.append_of_mem hmem
  have hmerge : (cmd.merge (ICommand.move oc) root).1.resolvedMoves =
      (oc.action.moves.foldl mergeStep (cmd.resolvedMoves, root)).1 := by
    simp [MoveCommand.merge, hanim]
  have hndkeys : ((pre ++ mv :: post).map ElementMove.elementId).Nodup := heq ▸ hnd
  rw [List.map_append, List.map_cons] at hndkeys
  have hmid := List.nodup_middle.mp hndkeys
  rw [List.nodup_cons] at hmid
  have hpre : ∀ x ∈ pre, x.elementId ≠ mv.elementId := by
    intro x hx hEq
    exact hmid.1 (List.mem_append_left _ (hEq ▸ List.mem_map_of_mem _ hx))
  have hpost : ∀ x ∈ post, x.elementId ≠ mv.elementId := by
    intro x hx hEq
    exact hmid.1 (List.mem_append_right _ (hEq ▸ List.mem_map_of_mem _ hx))
  have hfold : oc.action.moves.foldl mergeStep (cmd.resolvedMoves, root) =
      post.foldl mergeStep
        (mergeStep (pre.foldl mergeStep (cmd.resolvedMoves, root)) mv) := by
    rw [heq, List.foldl_append, List.foldl_cons]
  have hst₀2 : (pre.foldl mergeStep (cmd.resolvedMoves, root)).2 = root :=
    mergeFold_model pre _
  have hst₀get : mapGet (pre.foldl mergeStep (cmd.resolvedMoves, root)).1 mv.elementId =
      mapGet cmd.resolvedMoves mv.elementId :=
    mergeFold_mapGet_ne pre _ mv.elementId hpre
  have hstep_some : ∀ r, mapGet cmd.resolvedMoves mv.elementId = some r →
      mapGet (cmd.merge (ICommand.move oc) root).1.resolvedMoves mv.elementId =
        some { r with toPosition := mv.toPosition } := by
    intro r hr
    rw [hmerge, hfold]
    have hg : mapGet (pre.foldl mergeStep (cmd.resolvedMoves, root)).1 mv.elementId =
        some r := by
      rw [hst₀get]
      exact hr
    rw [mergeStep_existing _ mv r hg, mergeFold_mapGet_ne post _ _ hpost]
    have hkey : r.elementId = mv.elementId := mapGet_some_key _ _ _ hr
    rw [← hkey]
    exact mapGet_mapSet_self _ _
  refine ⟨hstep_some, ?_, ?_⟩
  · intro e hr he
    rw [hmerge, hfold]
    have hg : mapGet (pre.foldl mergeStep (cmd.resolvedMoves, root)).1 mv.elementId =
        none := by
      rw [hst₀get]
      exact hr
    have hres : MoveCommand.resolve mv (pre.foldl mergeStep (cmd.resolvedMoves, root)).2 =
        some ⟨mv.fromPosition.getD e.position, mv.elementId, mv.toPosition⟩ := by
      rw [hst₀2]
      unfold MoveCommand.resolve
      rw [he]
    rw [mergeStep_new _ mv _ hg hres, mergeFold_mapGet_ne post _ _ hpost]
    exact mapGet_mapSet_self _ _
  · intro r m e hr he
    have hmget := hstep_some r hr
    have hndm : ((cmd.merge (ICommand.move oc) root).1.resolvedMoves.map
        ResolvedElementMove.elementId).Nodup := by
      rw [hmerge]
      exact mergeFold_keys_nodup _ _ hndc
    set emr : ResolvedElementMove := { r with toPosition := mv.toPosition } with hemr
    have h1 := tween_getById
      (MoveAnimation.mk m (cmd.merge (ICommand.move oc) root).1.resolvedMoves true) 1
      mv.elementId emr e hndm hmget he
    have hrev : (MoveAnimation.mk m
        (cmd.merge (ICommand.move oc) root).1.resolvedMoves true).reverse = true := rfl
    rw [hrev] at h1
    simp only [if_true] at h1
    have hx : ((1 : ℚ) - 1) * emr.toPosition.x + 1 * emr.fromPosition.x =
        emr.fromPosition.x := by ring
    have hy : ((1 : ℚ) - 1) * emr.toPosition.y + 1 * emr.fromPosition.y =
        emr.fromPosition.y := by ring
    rw [hx, hy] at h1
    exact h1

/-- A non-animated command already holding a resolved move for n1:
gesture start (0, 0), current target (10, 10). -/
def mergeCmd : MoveCommand :=
  ⟨⟨[⟨"n1", none, ⟨10, 10⟩⟩], false⟩, [⟨⟨0, 0⟩, "n1", ⟨10, 10⟩⟩]⟩

/-- A later Move command of the same gesture targeting (20, 20). -/
def mergeOther : MoveCommand := ⟨⟨[⟨"n1", none, ⟨20, 20⟩⟩], false⟩, []⟩

/-- Witness for C2: after merging, the pending move for n1 keeps
fromPosition (0, 0) and takes toPosition (20, 20), and the undo
animation at t = 1 puts n1 back at (0, 0). -/
theorem move_merge_accumulation_witness :
    mapGet (mergeCmd.merge (ICommand.move mergeOther) moveRoot).1.resolvedMoves "n1" =
      some ⟨⟨0, 0⟩, "n1", ⟨20, 20⟩⟩ ∧
    getById ((MoveAnimation.mk moveRoot
        (mergeCmd.merge (ICommand.move mergeOther) moveRoot).1.resolvedMoves true).tween 1)
      "n1" = some ⟨"n1", false, ⟨0, 0⟩⟩ :=
  ⟨(move_merge_accumulation mergeCmd mergeOther moveRoot ⟨"n1", none, ⟨20, 20⟩⟩ "n1"
      rfl (by decide) rfl (by decide) (by decide)).1 ⟨⟨0, 0⟩, "n1", ⟨10, 10⟩⟩ (by decide),
   (move_merge_accumulation mergeCmd mergeOther moveRoot ⟨"n1", none, ⟨20, 20⟩⟩ "n1"
      rfl (by decide) rfl (by decide) (by decide)).2.2 ⟨⟨0, 0⟩, "n1", ⟨10, 10⟩⟩ moveRoot
      ⟨"n1", false, ⟨0, 0⟩⟩ (by decide) (by decide)⟩

/-- C9.  Silent skip of unresolvable references: a Move execute step, a
Move merge resolution step, or a Select execute step whose element id
is absent from the index leaves the state untouched and the rest of the
batch proceeds exactly as if the entry were not there; no error is
possible, every operation being total. -/
theorem unresolvable_silently_skipped :
    (∀ (animate : Bool) (st : ResolvedMoves × SModelRoot) (mv : ElementMove)
        (rest : List ElementMove), getById st.2 mv.elementId = none →
        (mv :: rest).foldl (execStep animate) st = rest.foldl (execStep animate) st) ∧
    (∀ (st : ResolvedMoves × SModelRoot) (mv : ElementMove) (rest : List ElementMove),
        getById st.2 mv.elementId = none → mapGet st.1 mv.elementId = none →
        (mv :: rest).foldl mergeStep st = rest.foldl mergeStep st) ∧
    (∀ (st : List SelectMemento × List SElem) (i : String) (rest : List SelOp),
        getById ⟨st.2⟩ i = none →
        (SelOp.select i :: rest).foldl applyOp st = rest.foldl applyOp st ∧
        (SelOp.deselect i :: rest).foldl applyOp st = rest.foldl applyOp st) := by
  refine ⟨?_, ?_, ?_⟩
  · intro animate st mv rest hnone
    rw [List.foldl_cons]
    have hres : MoveCommand.resolve mv st.2 = none := by
      unfold MoveCommand.resolve
      rw [hnone]
    have hstep : execStep animate st mv = st := by
      unfold execStep
      rw [hres]
    rw [hstep]
  · intro st mv rest hnone hget
    rw [List.foldl_cons]
    have hres : MoveCommand.resolve mv st.2 = none := by
      unfold MoveCommand.resolve
      rw [hnone]
    have hstep : mergeStep st mv = st := by
      unfold mergeStep
      rw [hget, hres]
    rw [hstep]
  · intro st i rest hnone
    have hli : lookupIdx (fun e => e.id == i) st.2 = none := by
      unfold getById at hnone
      simpa using hnone
    constructor
    · rw [List.foldl_cons]
      have hstep : applyOp st (SelOp.select i) = st := by
        simp only [applyOp, opStep]
        rw [hli]
        simp
      rw [hstep]
    · rw [List.foldl_cons]
      have hstep : applyOp st (SelOp.deselect i) = st := by
        simp only [applyOp, opStep]
        rw [hli]
        simp
      rw [hstep]

/-- Witness for C9: the skip lemmas applied to the unresolvable id zz
on `moveRoot`, each in a singleton batch. -/
theorem unresolvable_silently_skipped_witness :
    getById moveRoot "zz" = none ∧
    ([⟨"zz", none, ⟨1, 1⟩⟩] : List ElementMove).foldl (execStep false) ([], moveRoot) =
      ([], moveRoot) ∧
    ([⟨"zz", none, ⟨1, 1⟩⟩] : List ElementMove).foldl mergeStep ([], moveRoot) =
      ([], moveRoot) ∧
    [SelOp.select "zz"].foldl applyOp ([], moveRoot.children) = ([], moveRoot.children) :=
  ⟨by decide,
   unresolvable_silently_skipped.1 false ([], moveRoot) ⟨"zz", none, ⟨1, 1⟩⟩ [] (by decide),
   unresolvable_silently_skipped.2.1 ([], moveRoot) ⟨"zz", none, ⟨1, 1⟩⟩ [] (by decide) rfl,
   (unresolvable_silently_skipped.2.2 ([], moveRoot.children) "zz" [] (by decide)).1⟩
